import Mathlib

/-
  Verification development for the aetheric-purity-research script.

  The script selects, from a list of numeric inputs, the 3-combination whose
  mean is closest to 7.0 and prints a three-line report.  Numbers are modelled
  as exact rationals (ℚ): every decimal literal and every arithmetic step of
  the script is carried out exactly.  Process output is modelled as a record
  of stdout lines, stderr lines and an exit code; stderr lines are a small
  inductive type together with a rendering function giving the exact message
  text.
-/

/-- TARGET_MEAN constant of the script. -/
def TARGET_MEAN : ℚ := 7.0

/-- K constant of the script (size of the selected combination). -/
def K : ℕ := 3

/-- TARGET_SUM constant of the script, TARGET_MEAN * K. -/
def TARGET_SUM : ℚ := TARGET_MEAN * (K : ℚ)

/-- ceil_to_thousandth of the script: math.ceil (x * 1000.0) / 1000.0. -/
def ceil_to_thousandth (x : ℚ) : ℚ := (⌈x * 1000.0⌉ : ℚ) / 1000.0

/-- Numeric value of a list of decimal digit characters. -/
def digitsVal (ds : List Char) : ℕ := ds.foldl (fun n c => 10 * n + (c.toNat - 48)) 0

/-- Strip leading and trailing whitespace from a character list (Python strip). -/
def trimChars (cs : List Char) : List Char :=
  ((cs.dropWhile Char.isWhitespace).reverse.dropWhile Char.isWhitespace).reverse

/-- Optional exponent part of a Python float literal: empty, or e/E followed by
an optional sign and digits, consuming the whole remaining input. -/
def parseExponentPart (cs : List Char) (m : ℚ) : Option ℚ :=
  match cs with
  | [] => some m
  | c :: rest =>
    if c = 'e' ∨ c = 'E' then
      let signedRest : Bool × List Char :=
        match rest with
        | '+' :: r => (false, r)
        | '-' :: r => (true, r)
        | r => (false, r)
      let ds := signedRest.2.takeWhile Char.isDigit
      let rest3 := signedRest.2.dropWhile Char.isDigit
      if ds = [] ∨ rest3 ≠ [] then none
      else if signedRest.1 then some (m / 10 ^ digitsVal ds)
      else some (m * 10 ^ digitsVal ds)
    else none

/-- Unsigned Python float literal: digits with an optional fractional part
(at least one digit overall), then an optional exponent part. -/
def parseUnsigned (cs : List Char) : Option ℚ :=
  let ip := cs.takeWhile Char.isDigit
  let rest := cs.dropWhile Char.isDigit
  match rest with
  | '.' :: rest2 =>
    let fp := rest2.takeWhile Char.isDigit
    let rest3 := rest2.dropWhile Char.isDigit
    if ip = [] ∧ fp = [] then none
    else parseExponentPart rest3 ((digitsVal ip : ℚ) + (digitsVal fp : ℚ) / 10 ^ fp.length)
  | _ =>
    if ip = [] then none else parseExponentPart rest ((digitsVal ip : ℚ))

/-- Python float(string) on finite decimal literals: surrounding whitespace is
stripped, an optional sign precedes an unsigned literal.  (The inf/nan forms
and underscore separators are outside the exact-rational model.) -/
def floatOfString (s : String) : Option ℚ :=
  match trimChars s.data with
  | '+' :: cs => parseUnsigned cs
  | '-' :: cs => (parseUnsigned cs).map Neg.neg
  | cs => parseUnsigned cs

/-- Stderr lines the script can produce, one constructor per message site. -/
inductive ErrLine where
  | argCount : ErrLine
  | jsonParseError (e : String) : ErrLine
  | tokenParseError (e : String) : ErrLine
  | rangeWarning (bad : List ℚ) : ErrLine
  | insufficientValues (n : ℕ) : ErrLine
deriving DecidableEq

/-- The token branch of parse_values: float(a) for each argument, failing with
the ValueError message of the first token that does not convert. -/
def tokensToFloats : List String → Except ErrLine (List ℚ)
  | [] => Except.ok []
  | a :: rest =>
    match floatOfString a with
    | none =>
      Except.error (ErrLine.tokenParseError
        ("could not convert string to float: \x27" ++ a ++ "\x27"))
    | some v =>
      match tokensToFloats rest with
      | Except.ok vs => Except.ok (v :: vs)
      | Except.error e => Except.error e

/-- Split a character list at every occurrence of a separator character. -/
def splitOnChar (sep : Char) : List Char → List (List Char)
  | [] => [[]]
  | c :: rest =>
    if c = sep then [] :: splitOnChar sep rest
    else
      match splitOnChar sep rest with
      | [] => [[c]]
      | g :: gs => (c :: g) :: gs

/-- A JSON number: like a Python float literal but without a leading plus
sign, surrounded by optional whitespace. -/
def jsonNumber (cs : List Char) : Option ℚ :=
  match trimChars cs with
  | '+' :: _ => none
  | '-' :: rest => (parseUnsigned rest).map Neg.neg
  | rest => parseUnsigned rest

/-- json.loads restricted to flat arrays of numbers (the only JSON shape the
script coerces elementwise with float), composed with that coercion; the
argument is the stripped input, bracket characters at both ends included. -/
def jsonNumberArray (cs : List Char) : Except String (List ℚ) :=
  let inner := trimChars (cs.drop 1).dropLast
  if inner = [] then Except.ok []
  else
    match (splitOnChar ',' inner).mapM jsonNumber with
    | some vs => Except.ok vs
    | none => Except.error "Expecting value"

/-- parse_values of the script: with exactly one argument that (after
stripping) starts with a bracket and ends with a bracket, parse it as a JSON
array of numbers; otherwise treat every argument as a numeric token. -/
def parse_values (argv : List String) : Except ErrLine (List ℚ) :=
  match argv with
  | [a] =>
    let s := trimChars a.data
    if s.head? = some '[' ∧ s.getLast? = some ']' then
      match jsonNumberArray s with
      | Except.ok vals => Except.ok vals
      | Except.error e => Except.error (ErrLine.jsonParseError e)
    else tokensToFloats [a]
  | _ => tokensToFloats argv

/-- warn_out_of_range of the script: collect the values outside the inclusive
range from 0.001 to 14.0 and, if any, emit one warning line. -/
def warn_out_of_range (values : List ℚ) : List ErrLine :=
  let bad := values.filter (fun v => !decide (0.001 ≤ v ∧ v ≤ 14.0))
  if bad = [] then [] else [ErrLine.rangeWarning bad]

/-- All unordered n-element combinations of a list, each kept in its original
subsequence order, enumerated as itertools.combinations does. -/
def combinations {α : Type} : ℕ → List α → List (List α)
  | 0, _ => [[]]
  | _ + 1, [] => []
  | n + 1, x :: xs => (combinations n xs).map (fun c => x :: c) ++ combinations (n + 1) xs

/-- The selection key: a lexicographically ordered triple of distance of the
mean from TARGET_MEAN, distance of the sum from TARGET_SUM, and the sorted
combination. -/
abbrev Key := ℚ ×ₗ ℚ ×ₗ List ℚ

/-- key computed for one combination inside the loop of main. -/
def key (c : List ℚ) : Key :=
  let s := c.sum
  let mean := s / (K : ℚ)
  toLex (|mean - TARGET_MEAN|, toLex (|s - TARGET_SUM|, c.insertionSort (· ≤ ·)))

/-- One iteration of the selection loop of main: keep the incumbent unless the
candidate has a strictly smaller key (or there is no incumbent yet). -/
def selectStep (best : Option (List ℚ)) (c : List ℚ) : Option (List ℚ) :=
  match best with
  | none => some c
  | some b => if key c < key b then some c else some b

/-- The whole selection loop of main over a list of combinations. -/
def selectBest (combs : List (List ℚ)) : Option (List ℚ) :=
  combs.foldl selectStep none

/-- Round-half-even to an integer (the rounding of Python fixed-point string
formatting, applied to the exact rational value). -/
def roundHalfEven (x : ℚ) : ℤ :=
  let f := ⌊x⌋
  let r := x - (f : ℚ)
  if r < 1 / 2 then f
  else if 1 / 2 < r then f + 1
  else if f % 2 = 0 then f else f + 1

/-- Left-pad a string with zeros to a given length. -/
def padZeros (s : String) (n : ℕ) : String :=
  String.mk (List.replicate (n - s.length) '0') ++ s

/-- Python format specifier .Nf applied to an exact rational. -/
def fmtFixed (prec : ℕ) (x : ℚ) : String :=
  let m := (roundHalfEven (|x| * 10 ^ prec)).toNat
  let ip := m / 10 ^ prec
  let fp := m % 10 ^ prec
  (if x < 0 ∧ m ≠ 0 then "-" else "") ++ toString ip ++
    (if prec = 0 then "" else "." ++ padZeros (toString fp) prec)

/-- Number of decimal digits needed to write a rational exactly, when at most
twenty suffice. -/
def decDigits (x : ℚ) : Option ℕ :=
  (List.range 21).find? (fun k => (x * 10 ^ k).den = 1)

/-- Python repr of a float value, modelled on exact rationals: the shortest
exact fixed-point form, with at least one digit after the point. -/
def pyRepr (x : ℚ) : String :=
  match decDigits x with
  | some 0 => fmtFixed 1 x
  | some k => fmtFixed k x
  | none => fmtFixed 17 x

/-- Python repr of a list of floats, as interpolated into the warning line. -/
def pyListRepr (vs : List ℚ) : String :=
  "[" ++ String.intercalate ", " (vs.map pyRepr) ++ "]"

/-- Exact text of each stderr line of the script. -/
def render : ErrLine → String
  | ErrLine.argCount =>
    "Provide at least 3 values. Example: python find_best_mean7.py 1.356 7.522 5.498"
  | ErrLine.jsonParseError e => "Could not parse JSON array: " ++ e
  | ErrLine.tokenParseError e =>
    "All inputs must be numbers (or a JSON array of numbers): " ++ e
  | ErrLine.rangeWarning bad =>
    "Warning: these values are outside the 1.0–14.0 range: " ++ pyListRepr bad
  | ErrLine.insufficientValues n =>
    "Need at least " ++ toString K ++ " values, got " ++ toString n ++ "."

/-- The three stdout lines printed for the winning combination (a, b, c). -/
def reportLines (a b c : ℚ) : List String :=
  let s := a + b + c
  let mean := s / (K : ℚ)
  ["Best triple: (" ++ pyRepr a ++ ", " ++ pyRepr b ++ ", " ++ pyRepr c ++ ")",
   "Exact mean: " ++ fmtFixed 12 mean,
   "Mean rounded UP to nearest thousandth: " ++ fmtFixed 3 (ceil_to_thousandth mean)]

/-- Observable outcome of one process run. -/
structure Output where
  stdout : List String
  stderr : List ErrLine
  exitCode : ℕ
deriving DecidableEq

/-- main of the script, over the argument list (program name excluded):
argument-count guard, parse, range warning, length check, selection loop,
report.  The branches after the length check that main can never reach
(an empty combination list, or a winner that is not a triple, where Python
would raise) end with an empty stdout and a nonzero exit code. -/
def runMain (argv : List String) : Output :=
  if argv.length < 3 then ⟨[], [ErrLine.argCount], 1⟩
  else
    match parse_values argv with
    | Except.error e => ⟨[], [e], 1⟩
    | Except.ok values =>
      let warns := warn_out_of_range values
      if values.length < K then
        ⟨[], warns ++ [ErrLine.insufficientValues values.length], 1⟩
      else
        match selectBest (combinations K values) with
        | none => ⟨[], warns, 1⟩
        | some [a, b, c] => ⟨reportLines a b c, warns, 0⟩
        | some _ => ⟨[], warns, 1⟩

/-- A list is a combination of l exactly when it is a subsequence of l of the
right length. -/
theorem mem_combinations {α : Type} (n : ℕ) (l c : List α) :
    c ∈ combinations n l ↔ c.Sublist l ∧ c.length = n := by
  induction l generalizing n c with
  | nil =>
    cases n with
    | zero =>
      simp only [combinations, List.mem_singleton]
      constructor
      · rintro rfl; exact ⟨List.Sublist.refl _, rfl⟩
      · rintro ⟨h, -⟩; exact List.sublist_nil.mp h
    | succ n =>
      simp only [combinations, List.not_mem_nil, false_iff, not_and]
      intro h
      rw [List.sublist_nil.mp h]
      simp
  | cons x xs ih =>
    cases n with
    | zero =>
      simp only [combinations, List.mem_singleton]
      constructor
      · rintro rfl; exact ⟨List.nil_sublist _, rfl⟩
      · rintro ⟨-, hl⟩; exact List.length_eq_zero.mp hl
    | succ n =>
      simp only [combinations, List.mem_append, List.mem_map]
      constructor
      · rintro (⟨c', hc', rfl⟩ | h)
        · obtain ⟨hs, hl⟩ := (ih n c').mp hc'
          exact ⟨hs.cons₂ x, by simp [hl]⟩
        · obtain ⟨hs, hl⟩ := (ih (n + 1) c).mp h
          exact ⟨hs.cons x, hl⟩
      · rintro ⟨hs, hl⟩
        cases hs with
        | cons _ h => exact Or.inr ((ih (n + 1) c).mpr ⟨h, hl⟩)
        | cons₂ _ h =>
          exact Or.inl ⟨_, (ih n _).mpr ⟨h, by simpa using hl⟩, rfl⟩

/-- The selection loop started on an incumbent returns a minimal-key element
among the incumbent and the remaining candidates. -/
theorem foldl_selectStep_spec (cs : List (List ℚ)) (b : List ℚ) :
    ∃ r, cs.foldl selectStep (some b) = some r ∧ (r = b ∨ r ∈ cs) ∧
      key r ≤ key b ∧ ∀ c ∈ cs, key r ≤ key c := by
  induction cs generalizing b with
  | nil => exact ⟨b, rfl, Or.inl rfl, le_refl _, by simp⟩
  | cons c cs ih =>
    by_cases h : key c < key b
    · obtain ⟨r, hr, hmem, hle, hall⟩ := ih c
      refine ⟨r, ?_, ?_, ?_, ?_⟩
      · simpa [selectStep, if_pos h] using hr
      · exact Or.inr (hmem.elim (fun e => e ▸ List.mem_cons_self c cs) (fun hm => List.mem_cons_of_mem c hm))
      · exact le_trans hle (le_of_lt h)
      · intro d hd
        rcases List.mem_cons.mp hd with rfl | hd
        · exact hle
        · exact hall d hd
    · obtain ⟨r, hr, hmem, hle, hall⟩ := ih b
      refine ⟨r, ?_, ?_, hle, ?_⟩
      · simpa [selectStep, if_neg h] using hr
      · exact hmem.imp id (fun hm => List.mem_cons_of_mem c hm)
      · intro d hd
        rcases List.mem_cons.mp hd with rfl | hd
        · exact le_trans hle (not_lt.mp h)
        · exact hall d hd

/-- With at least three input values the selection loop returns a combination
whose key is minimal among all combinations. -/
theorem selectBest_spec (l : List ℚ) (h : 3 ≤ l.length) :
    ∃ w, selectBest (combinations K l) = some w ∧ w ∈ combinations K l ∧
      ∀ c ∈ combinations K l, key w ≤ key c := by
  have htake : l.take K ∈ combinations K l := by
    rw [mem_combinations]
    refine ⟨List.take_sublist K l, ?_⟩
    rw [List.length_take]
    simp only [K]
    omega
  obtain ⟨c, cs, hcc⟩ := List.exists_cons_of_ne_nil (List.ne_nil_of_mem htake)
  obtain ⟨r, hr, hmem, hle, hall⟩ := foldl_selectStep_spec cs c
  refine ⟨r, ?_, ?_, ?_⟩
  · rw [selectBest, hcc]
    simpa [selectStep] using hr
  · rw [hcc]
    exact hmem.elim (fun e => e ▸ List.mem_cons_self c cs) (fun hm => List.mem_cons_of_mem c hm)
  · intro d hd
    rw [hcc] at hd
    rcases List.mem_cons.mp hd with rfl | hd
    · exact hle
    · exact hall d hd


/-- The selection key of a combination depends only on its multiset of
values: the sum and the ascending sort are permutation invariants. -/
theorem key_congr {c c' : List ℚ} (h : c.Perm c') : key c = key c' := by
  have hsum : c.sum = c'.sum := h.sum_eq
  have hsort : c.insertionSort (· ≤ ·) = c'.insertionSort (· ≤ ·) :=
    List.eq_of_perm_of_sorted
      ((List.perm_insertionSort _ c).trans (h.trans (List.perm_insertionSort _ c').symm))
      (List.sorted_insertionSort _ c) (List.sorted_insertionSort _ c')
  simp only [key, hsum, hsort]

/-- Every combination of a list has, in any permutation of that list, a
combination with the same values. -/
theorem combos_transfer {l l' : List ℚ} (h : l.Perm l') {c : List ℚ}
    (hc : c ∈ combinations K l) : ∃ c', c' ∈ combinations K l' ∧ c'.Perm c := by
  obtain ⟨hsub, hlen⟩ := (mem_combinations K l c).mp hc
  obtain ⟨c', hperm, hsub'⟩ := hsub.subperm.trans h.subperm
  exact ⟨c', (mem_combinations K l' c').mpr ⟨hsub', by rw [hperm.length_eq, hlen]⟩, hperm⟩

/-- The token branch returns exactly one value per argument. -/
theorem tokensToFloats_ok_length {argv : List String} {vs : List ℚ}
    (h : tokensToFloats argv = Except.ok vs) : vs.length = argv.length := by
  induction argv generalizing vs with
  | nil => simp only [tokensToFloats] at h; cases h; rfl
  | cons a rest ih =>
    simp only [tokensToFloats] at h
    cases hf : floatOfString a with
    | none => rw [hf] at h; cases h
    | some v =>
      rw [hf] at h
      cases hrest : tokensToFloats rest with
      | ok ws => rw [hrest] at h; cases h; simp [ih hrest]
      | error e => rw [hrest] at h; cases h

/-- Errors of the token branch are always tokenParseError lines. -/
theorem tokensToFloats_error_shape {argv : List String} {e : ErrLine}
    (h : tokensToFloats argv = Except.error e) : ∃ m, e = ErrLine.tokenParseError m := by
  induction argv generalizing e with
  | nil => simp only [tokensToFloats] at h; cases h
  | cons a rest ih =>
    simp only [tokensToFloats] at h
    cases hf : floatOfString a with
    | none => rw [hf] at h; cases h; exact ⟨_, rfl⟩
    | some v =>
      rw [hf] at h
      cases hrest : tokensToFloats rest with
      | ok ws => rw [hrest] at h; cases h
      | error e' => rw [hrest] at h; cases h; exact ih hrest

/-- A token that does not convert makes the token branch fail. -/
theorem tokensToFloats_error_of_bad {argv : List String}
    (h : ∃ a ∈ argv, floatOfString a = none) :
    ∃ m, tokensToFloats argv = Except.error (ErrLine.tokenParseError m) := by
  induction argv with
  | nil => simp at h
  | cons a rest ih =>
    cases hf : floatOfString a with
    | none =>
      exact ⟨"could not convert string to float: \x27" ++ a ++ "\x27",
        by simp only [tokensToFloats, hf]⟩
    | some v =>
      obtain ⟨b, hb, hbf⟩ := h
      rcases List.mem_cons.mp hb with rfl | hb
      · rw [hf] at hbf; cases hbf
      · obtain ⟨m, hm⟩ := ih ⟨b, hb, hbf⟩
        exact ⟨m, by simp only [tokensToFloats, hf, hm]⟩

/-- With any number of arguments other than one, parse_values is the token
branch. -/
theorem parse_values_eq_tokens {argv : List String} (h : argv.length ≠ 1) :
    parse_values argv = tokensToFloats argv := by
  match argv with
  | [] => rfl
  | [a] => simp at h
  | a :: b :: rest => rfl

/-- Errors of parse_values are JSON errors or token errors, never the
insufficient-values line and never a warning. -/
theorem parse_values_error_shape {argv : List String} {e : ErrLine}
    (h : parse_values argv = Except.error e) :
    (∃ m, e = ErrLine.jsonParseError m) ∨ ∃ m, e = ErrLine.tokenParseError m := by
  match argv with
  | [] => exact Or.inr (tokensToFloats_error_shape h)
  | [a] =>
    simp only [parse_values] at h
    split at h
    · cases hj : jsonNumberArray (trimChars a.data) with
      | ok vals => rw [hj] at h; cases h
      | error m => rw [hj] at h; cases h; exact Or.inl ⟨m, rfl⟩
    · exact Or.inr (tokensToFloats_error_shape h)
  | a :: b :: rest => exact Or.inr (tokensToFloats_error_shape h)

/-- Entries of warn_out_of_range are a single warning listing exactly the
values outside the inclusive 0.001 to 14.0 range. -/
theorem warn_out_of_range_shape (values : List ℚ) :
    warn_out_of_range values = [] ∧
      values.filter (fun v => !decide (0.001 ≤ v ∧ v ≤ 14.0)) = [] ∨
    warn_out_of_range values =
      [ErrLine.rangeWarning (values.filter (fun v => !decide (0.001 ≤ v ∧ v ≤ 14.0)))] ∧
      values.filter (fun v => !decide (0.001 ≤ v ∧ v ≤ 14.0)) ≠ [] := by
  by_cases h : values.filter (fun v => !decide (0.001 ≤ v ∧ v ≤ 14.0)) = []
  · exact Or.inl ⟨by simp only [warn_out_of_range, if_pos h], h⟩
  · exact Or.inr ⟨by simp only [warn_out_of_range, if_neg h], h⟩

/-- Once the argument-count guard passes and parsing succeeds, the run prints
the report of the loop winner, warnings are the only stderr lines, and the
exit code is zero. -/
theorem runMain_success {argv : List String} {values : List ℚ}
    (hlen : 3 ≤ argv.length) (hp : parse_values argv = Except.ok values) :
    ∃ w, selectBest (combinations K values) = some w ∧ w ∈ combinations K values ∧
      (∀ c ∈ combinations K values, key w ≤ key c) ∧
      ∃ a b c : ℚ, w = [a, b, c] ∧
        runMain argv = ⟨reportLines a b c, warn_out_of_range values, 0⟩ := by
  have ht : tokensToFloats argv = Except.ok values := by
    rw [← parse_values_eq_tokens (by omega)]; exact hp
  have hv3 : 3 ≤ values.length := by
    rw [tokensToFloats_ok_length ht]; exact hlen
  obtain ⟨w, hw, hwm, hmin⟩ := selectBest_spec values hv3
  have hwlen : w.length = 3 := ((mem_combinations K values w).mp hwm).2
  match w, hwlen, hw, hwm, hmin with
  | [a, b, c], _, hw, hwm, hmin =>
    refine ⟨[a, b, c], hw, hwm, hmin, a, b, c, rfl, ?_⟩
    have hKlt : ¬ values.length < K := by
      simp only [K]; omega
    simp only [runMain, if_neg (not_lt.mpr hlen), hp, if_neg hKlt, hw]

/-- The thousandth ceiling over exact rationals, with the decimal constants
normalised. -/
theorem ceil_to_thousandth_eq (x : ℚ) :
    ceil_to_thousandth x = (⌈x * 1000⌉ : ℚ) / 1000 := by
  norm_num [ceil_to_thousandth]

/-- Claim C1: with a single JSON-array command-line argument the script is
claimed to parse the array and print the normal report; the argument-count
guard of main in fact rejects every single-argument invocation before
parsing, printing the argument-count message and exiting nonzero with an
empty stdout.  This evaluates the run on such an input. -/
theorem C1_single_json_arg_hits_guard :
    runMain ["[1.0, 2.0, 3.0]"] = ⟨[], [ErrLine.argCount], 1⟩ := rfl

/-- Claim C2: the selection loop returns one of the 3-combinations of the
input, and no 3-combination has a strictly lexicographically smaller key. -/
theorem C2_selector_returns_minimal (l : List ℚ) (h : 3 ≤ l.length) :
    ∃ w, selectBest (combinations K l) = some w ∧ w ∈ combinations K l ∧
      ∀ c ∈ combinations K l, ¬ key c < key w := by
  obtain ⟨w, hw, hm, hmin⟩ := selectBest_spec l h
  exact ⟨w, hw, hm, fun c hc => not_lt.mpr (hmin c hc)⟩

/-- Witness for C2 at the concrete input 1 2 3 9. -/
theorem C2_witness :
    ∃ w, selectBest (combinations K [1, 2, 3, 9]) = some w ∧
      w ∈ combinations K [1, 2, 3, 9] ∧
      ∀ c ∈ combinations K [1, 2, 3, 9], ¬ key c < key w :=
  C2_selector_returns_minimal [1, 2, 3, 9] (by decide)

/-- Claim C3 counterexample: on the single argument [1.0, 2.0] the guard
message is the argument-count line, and the insufficient-values line claimed
by the specification (which would state the received count, 2) is absent. -/
theorem C3_counterexample :
    (runMain ["[1.0, 2.0]"]).stderr = [ErrLine.argCount] ∧
    ErrLine.insufficientValues 2 ∉ (runMain ["[1.0, 2.0]"]).stderr := by
  refine ⟨rfl, ?_⟩
  intro h
  simp only [runMain, List.length_cons, List.length_nil] at h
  rcases List.mem_singleton.mp h with h'
  cases h'

/-- Claim C3 amended: on the single argument [1.0, 2.0] the script exits
nonzero with an empty stdout, and the only stderr line is the argument-count
message, which states the minimum required count but not the received count. -/
theorem C3_amended_guard_message :
    runMain ["[1.0, 2.0]"] = ⟨[], [ErrLine.argCount], 1⟩ ∧
    render ErrLine.argCount =
      "Provide at least 3 values. Example: python find_best_mean7.py 1.356 7.522 5.498" :=
  ⟨rfl, rfl⟩

/-- Claim C4: the insufficient-values exit of main is unreachable: no
invocation ever prints its message, because the argument-count guard forces
the token branch, which yields one value per argument. -/
theorem C4_insufficient_values_unreachable (argv : List String) (n : ℕ) :
    ErrLine.insufficientValues n ∉ (runMain argv).stderr := by
  by_cases hlen : argv.length < 3
  · rw [runMain, if_pos hlen]
    simp
  · push_neg at hlen
    cases hp : parse_values argv with
    | error e =>
      simp only [runMain, if_neg (not_lt.mpr hlen), hp]
      rcases parse_values_error_shape hp with ⟨m, rfl⟩ | ⟨m, rfl⟩ <;> simp
    | ok values =>
      obtain ⟨w, hw, hwm, hmin, a, b, c, hwabc, hrun⟩ := runMain_success hlen hp
      rw [hrun]
      rcases warn_out_of_range_shape values with ⟨hW, -⟩ | ⟨hW, -⟩ <;> simp [hW]

/-- Claim C5: ceil_to_thousandth rounds up to the nearest multiple of One
thousandth: the result is at least the argument, is a multiple of 1/1000,
is the least such multiple, is the identity on exact multiples, and takes
the three documented values. -/
theorem C5_ceiling_rounding :
    (∀ x : ℚ, x ≤ ceil_to_thousandth x) ∧
    (∀ x : ℚ, ∃ k : ℤ, ceil_to_thousandth x = (k : ℚ) / 1000) ∧
    (∀ x : ℚ, ∀ k : ℤ, x ≤ (k : ℚ) / 1000 → ceil_to_thousandth x ≤ (k : ℚ) / 1000) ∧
    (∀ x : ℚ, ∀ k : ℤ, x = (k : ℚ) / 1000 → ceil_to_thousandth x = x) ∧
    ceil_to_thousandth 6.9999999 = 7.000 ∧
    ceil_to_thousandth 7.0001 = 7.001 ∧
    ceil_to_thousandth 7.0 = 7.000 := by
  have h1000 : (0 : ℚ) < 1000 := by norm_num
  refine ⟨?_, ?_, ?_, ?_, ?_, ?_, ?_⟩
  · intro x
    rw [ceil_to_thousandth_eq, le_div_iff₀ h1000]
    exact Int.le_ceil _
  · intro x
    exact ⟨⌈x * 1000⌉, ceil_to_thousandth_eq x⟩
  · intro x k h
    rw [ceil_to_thousandth_eq]
    have hx : x * 1000 ≤ (k : ℚ) := (le_div_iff₀ h1000).mp h
    have hc : (⌈x * 1000⌉ : ℚ) ≤ (k : ℚ) := by
      exact_mod_cast Int.ceil_le.mpr hx
    exact div_le_div_of_nonneg_right hc h1000.le |>.trans_eq rfl
  · intro x k h
    have hx : x * 1000 = (k : ℚ) := by
      rw [h]; field_simp
    rw [ceil_to_thousandth_eq, hx]
    rw [Int.ceil_intCast]
    rw [h]
  · have hc : (⌈(6.9999999 : ℚ) * 1000⌉ : ℤ) = 7000 := by
      norm_num [Int.ceil_eq_iff]
    rw [ceil_to_thousandth_eq, hc]
    norm_num
  · have hc : (⌈(7.0001 : ℚ) * 1000⌉ : ℤ) = 7001 := by
      norm_num [Int.ceil_eq_iff]
    rw [ceil_to_thousandth_eq, hc]
    norm_num
  · have hc : (⌈(7.0 : ℚ) * 1000⌉ : ℤ) = 7000 := by
      norm_num [Int.ceil_eq_iff]
    rw [ceil_to_thousandth_eq, hc]
    norm_num

/-- Witness for C5: the least-multiple part at x = 7, k = 7000 and the
no-op part at x = 5/2, k = 2500. -/
theorem C5_witness :
    ceil_to_thousandth 7 ≤ ((7000 : ℤ) : ℚ) / 1000 ∧
    ceil_to_thousandth (5 / 2) = 5 / 2 :=
  ⟨C5_ceiling_rounding.2.2.1 7 7000 (by norm_num),
   C5_ceiling_rounding.2.2.2.1 (5 / 2) 2500 (by norm_num)⟩

/-- Claim C6: the range validator emits at most one line, emits nothing
exactly when every value lies in the inclusive 0.001 to 14.0 range, lists
exactly the out-of-range values when it fires, and the run still prints the
selection report with exit code zero, the warnings being the only stderr
lines. -/
theorem C6_range_warning_advisory (argv : List String) (values : List ℚ)
    (hlen : 3 ≤ argv.length) (hp : parse_values argv = Except.ok values) :
    (warn_out_of_range values).length ≤ 1 ∧
    (warn_out_of_range values = [] ↔ ∀ v ∈ values, 0.001 ≤ v ∧ v ≤ 14.0) ∧
    (warn_out_of_range values ≠ [] →
      warn_out_of_range values =
        [ErrLine.rangeWarning (values.filter (fun v => !decide (0.001 ≤ v ∧ v ≤ 14.0)))]) ∧
    ∃ a b c : ℚ, selectBest (combinations K values) = some [a, b, c] ∧
      runMain argv = ⟨reportLines a b c, warn_out_of_range values, 0⟩ := by
  have hfilter : values.filter (fun v => !decide (0.001 ≤ v ∧ v ≤ 14.0)) = [] ↔
      ∀ v ∈ values, 0.001 ≤ v ∧ v ≤ 14.0 := by
    rw [List.filter_eq_nil_iff]
    simp
  have hlast : ∃ a b c : ℚ, selectBest (combinations K values) = some [a, b, c] ∧
      runMain argv = ⟨reportLines a b c, warn_out_of_range values, 0⟩ := by
    obtain ⟨w, hw, hwm, hmin, a, b, c, hwabc, hrun⟩ := runMain_success hlen hp
    subst hwabc
    exact ⟨a, b, c, hw, hrun⟩
  rcases warn_out_of_range_shape values with ⟨hW, hF⟩ | ⟨hW, hF⟩
  · refine ⟨by simp [hW], ?_, ?_, hlast⟩
    · exact ⟨fun _ => hfilter.mp hF, fun _ => hW⟩
    · intro hne
      exact absurd hW hne
  · refine ⟨by simp [hW], ?_, fun _ => hW, hlast⟩
    constructor
    · intro h
      rw [hW] at h
      cases h
    · intro hall
      exact absurd (hfilter.mpr hall) hF

/-- Witness for C6 at the input 20 7 7, whose first value exceeds 14.0. -/
theorem C6_witness :
    (warn_out_of_range [20, 7, 7]).length ≤ 1 ∧
    (warn_out_of_range [20, 7, 7] = [] ↔
      ∀ v ∈ ([20, 7, 7] : List ℚ), 0.001 ≤ v ∧ v ≤ 14.0) ∧
    (warn_out_of_range [20, 7, 7] ≠ [] →
      warn_out_of_range [20, 7, 7] =
        [ErrLine.rangeWarning
          (([20, 7, 7] : List ℚ).filter (fun v => !decide (0.001 ≤ v ∧ v ≤ 14.0)))]) ∧
    ∃ a b c : ℚ, selectBest (combinations K [20, 7, 7]) = some [a, b, c] ∧
      runMain ["20", "7", "7"] = ⟨reportLines a b c, warn_out_of_range [20, 7, 7], 0⟩ :=
  C6_range_warning_advisory ["20", "7", "7"] [20, 7, 7] (by decide) rfl

/-- Claim C7: on the token path a non-numeric token is fatal: the run exits
nonzero with the token error as the only stderr line and an empty stdout. -/
theorem C7_token_error_fatal (argv : List String) (hlen : 3 ≤ argv.length)
    (hbad : ∃ a ∈ argv, floatOfString a = none) :
    ∃ m, runMain argv = ⟨[], [ErrLine.tokenParseError m], 1⟩ := by
  obtain ⟨m, hm⟩ := tokensToFloats_error_of_bad hbad
  have hp : parse_values argv = Except.error (ErrLine.tokenParseError m) := by
    rw [parse_values_eq_tokens (by omega)]; exact hm
  refine ⟨m, ?_⟩
  simp only [runMain, if_neg (not_lt.mpr hlen), hp]

/-- Witness for C7 at the scenario input 1.0 7.0 abc. -/
theorem C7_witness :
    ∃ m, runMain ["1.0", "7.0", "abc"] = ⟨[], [ErrLine.tokenParseError m], 1⟩ :=
  C7_token_error_fatal ["1.0", "7.0", "abc"] (by decide) ⟨"abc", by decide, by decide⟩

/-- Claim C8: every run either prints the full three-line report and exits
with code zero, or exits nonzero having printed nothing on stdout. -/
theorem C8_report_all_or_nothing (argv : List String) :
    ((runMain argv).exitCode = 0 ∧ (runMain argv).stdout.length = 3) ∨
    ((runMain argv).exitCode ≠ 0 ∧ (runMain argv).stdout = []) := by
  by_cases hlen : argv.length < 3
  · right
    simp [runMain, if_pos hlen]
  · push_neg at hlen
    cases hp : parse_values argv with
    | error e =>
      right
      simp only [runMain, if_neg (not_lt.mpr hlen), hp]
      exact ⟨one_ne_zero, trivial⟩
    | ok values =>
      obtain ⟨w, hw, hwm, hmin, a, b, c, hwabc, hrun⟩ := runMain_success hlen hp
      left
      rw [hrun]
      exact ⟨rfl, rfl⟩

/-- Claim C9: on inputs whose parsed values are permutations of each other,
the two runs select the same multiset of three values and report the same
exact mean and the same ceiling-rounded mean (their stdout lines after the
first coincide). -/
theorem C9_permutation_invariance (argv argv' : List String)
    (values values' : List ℚ)
    (hlen : 3 ≤ argv.length) (hlen' : 3 ≤ argv'.length)
    (hp : parse_values argv = Except.ok values)
    (hp' : parse_values argv' = Except.ok values')
    (hperm : values.Perm values') :
    ∃ a b c a' b' c' : ℚ,
      selectBest (combinations K values) = some [a, b, c] ∧
      selectBest (combinations K values') = some [a', b', c'] ∧
      ([a, b, c] : List ℚ).Perm [a', b', c'] ∧
      (a + b + c) / (K : ℚ) = (a' + b' + c') / (K : ℚ) ∧
      ceil_to_thousandth ((a + b + c) / (K : ℚ)) =
        ceil_to_thousandth ((a' + b' + c') / (K : ℚ)) ∧
      (runMain argv).stdout.drop 1 = (runMain argv').stdout.drop 1 := by
  obtain ⟨w, hw, hwm, hmin, a, b, c, hwabc, hrun⟩ := runMain_success hlen hp
  obtain ⟨w', hw', hwm', hmin', a', b', c', hwabc', hrun'⟩ := runMain_success hlen' hp'
  subst hwabc
  subst hwabc'
  obtain ⟨d, hd, hdp⟩ := combos_transfer hperm.symm hwm'
  obtain ⟨d', hd', hdp'⟩ := combos_transfer hperm hwm
  have h1 : key [a, b, c] ≤ key [a', b', c'] :=
    (hmin d hd).trans (le_of_eq (key_congr hdp))
  have h2 : key [a', b', c'] ≤ key [a, b, c] :=
    (hmin' d' hd').trans (le_of_eq (key_congr hdp'))
  have hk := le_antisymm h1 h2
  have hsort : ([a, b, c] : List ℚ).insertionSort (· ≤ ·) =
      ([a', b', c'] : List ℚ).insertionSort (· ≤ ·) := by
    have h3 := congrArg (fun k : Key => (ofLex (ofLex k).2).2) hk
    simpa [key] using h3
  have hpw : ([a, b, c] : List ℚ).Perm [a', b', c'] := by
    have p1 := List.perm_insertionSort (· ≤ ·) ([a, b, c] : List ℚ)
    have p2 := List.perm_insertionSort (· ≤ ·) ([a', b', c'] : List ℚ)
    rw [hsort] at p1
    exact p1.symm.trans p2
  have hsum : a + b + c = a' + b' + c' := by
    have hs := hpw.sum_eq
    simpa [add_assoc] using hs
  have hmean : (a + b + c) / (K : ℚ) = (a' + b' + c') / (K : ℚ) := by rw [hsum]
  refine ⟨a, b, c, a', b', c', hw, hw', hpw, hmean, by rw [hmean], ?_⟩
  rw [hrun, hrun']
  simp only [reportLines, List.drop]
  rw [hsum]

/-- Witness for C9 at the inputs 1 2 3 9 and 9 3 2 1. -/
theorem C9_witness :
    ∃ a b c a' b' c' : ℚ,
      selectBest (combinations K [1, 2, 3, 9]) = some [a, b, c] ∧
      selectBest (combinations K [9, 3, 2, 1]) = some [a', b', c'] ∧
      ([a, b, c] : List ℚ).Perm [a', b', c'] ∧
      (a + b + c) / (K : ℚ) = (a' + b' + c') / (K : ℚ) ∧
      ceil_to_thousandth ((a + b + c) / (K : ℚ)) =
        ceil_to_thousandth ((a' + b' + c') / (K : ℚ)) ∧
      (runMain ["1", "2", "3", "9"]).stdout.drop 1 =
        (runMain ["9", "3", "2", "1"]).stdout.drop 1 :=
  C9_permutation_invariance ["1", "2", "3", "9"] ["9", "3", "2", "1"]
    [1, 2, 3, 9] [9, 3, 2, 1] (by decide) (by decide) rfl rfl (by decide)

/-- Claim C10: whenever the range warning fires, the emitted line carries the
text 1.0–14.0 for the range, while the values listed are exactly those
failing the inclusive 0.001 to 14.0 membership check. -/
theorem C10_warning_text (values : List ℚ) (e : ErrLine)
    (he : e ∈ warn_out_of_range values) :
    e = ErrLine.rangeWarning
      (values.filter (fun v => !decide (0.001 ≤ v ∧ v ≤ 14.0))) ∧
    ∃ rest, render e =
      "Warning: these values are outside the 1.0–14.0 range: " ++ rest := by
  rcases warn_out_of_range_shape values with ⟨hW, -⟩ | ⟨hW, -⟩
  · rw [hW] at he
    cases he
  · rw [hW] at he
    have he' := List.mem_singleton.mp he
    subst he'
    exact ⟨rfl, pyListRepr _, rfl⟩

/-- Witness for C10 at the single out-of-range value 20. -/
theorem C10_witness :
    ErrLine.rangeWarning [20] =
      ErrLine.rangeWarning
        (([20] : List ℚ).filter (fun v => !decide (0.001 ≤ v ∧ v ≤ 14.0))) ∧
    ∃ rest, render (ErrLine.rangeWarning [20]) =
      "Warning: these values are outside the 1.0–14.0 range: " ++ rest :=
  C10_warning_text [20] (ErrLine.rangeWarning [20]) (by with_unfolding_all decide)
